import Mathlib

/-!
Shallow embedding of the Gem Hunter puzzle solver (src/main.py) and proofs
about it.  The program stores a square grid whose cells are unknown (`_`),
fixed traps (`T`), fixed gems (`G`) or numeric clues, and solves it with
three strategies: a SAT encoding handed to an external solver, exhaustive
brute force, and pruned backtracking.  Python lists become Lean lists,
in-place mutation becomes explicit state passing, and the external SAT
solver (pysat) becomes an oracle parameter with a semantic contract.
-/

namespace GemHunt

/-- A grid cell: the closed variant produced by the loader.
Python represents these as the strings `_`, `T`, `G` or an int. -/
inductive Cell where
  | unknown : Cell
  | trap : Cell
  | gem : Cell
  | clue : Nat → Cell
deriving DecidableEq, Repr

/-- A grid is a list of rows, as in the Python 2-D list. -/
abbrev Grid := List (List Cell)

/-- `grid[i][j]`; out-of-range reads (which the program never performs on
well-formed square grids) default to `unknown`. -/
def cellAt (g : Grid) (i j : Nat) : Cell :=
  (g.getD i []).getD j Cell.unknown

/-- `grid[i][j] = v`; `List.set` ignores out-of-range indices. -/
def setCell (g : Grid) (i j : Nat) (v : Cell) : Grid :=
  g.set i ((g.getD i []).set j v)

/-- The loader guarantees a square matrix (spec section 6); the core assumes
it.  `N = len(grid)` and every row has length `N`. -/
def isSquare (g : Grid) : Bool :=
  g.all fun row => row.length == g.length

/-- `get_neighbors(r, c, N)` of src/main.py: the up-to-8 cells at
8-adjacency around `(r, c)`, clipped to the `N × N` bounds, generated in
the source's row-major loop order over `[r-1, r, r+1] × [c-1, c, c+1]`
minus the center.  Coordinates are generated over `Int` because Python's
`r-1` can be `-1` and is then discarded by the bounds check. -/
def get_neighbors (r c N : Nat) : List (Nat × Nat) :=
  (([(r : Int) - 1, (r : Int), (r : Int) + 1].flatMap fun nr =>
    [(c : Int) - 1, (c : Int), (c : Int) + 1].map fun nc => (nr, nc)).filterMap
      fun p =>
        if 0 ≤ p.1 ∧ p.1 < (N : Int) ∧ 0 ≤ p.2 ∧ p.2 < (N : Int) ∧
            ¬(p.1 = (r : Int) ∧ p.2 = (c : Int)) then
          some (p.1.toNat, p.2.toNat)
        else none)

/-- All coordinates `(i, j)` with `i, j < N` in row-major order: the nested
`for i in range(N): for j in range(N)` loops of the source. -/
def coordsOf (N : Nat) : List (Nat × Nat) :=
  (List.range N).flatMap fun i => (List.range N).map fun j => (i, j)

/-- `is_valid_assignment(grid)` of src/main.py: for every numbered cell the
count of `T` neighbors must equal the number. -/
def is_valid_assignment (g : Grid) : Bool :=
  (coordsOf g.length).all fun p =>
    match cellAt g p.1 p.2 with
    | Cell.clue n =>
        ((get_neighbors p.1 p.2 g.length).countP fun q =>
          cellAt g q.1 q.2 == Cell.trap) == n
    | _ => true

/-- `[(i, j) ... if grid[i][j] == '_']`: the row-major list of unknown
cells shared by the brute-force and backtracking strategies. -/
def unknownsOf (g : Grid) : List (Nat × Nat) :=
  (coordsOf g.length).filter fun p => cellAt g p.1 p.2 == Cell.unknown

/-- `sum(row.count('T') for row in grid)`. -/
def countTraps (g : Grid) : Nat :=
  (g.map fun row => row.countP fun c => c == Cell.trap).sum

/-- `sum(row.count('G') for row in grid)`. -/
def countGems (g : Grid) : Nat :=
  (g.map fun row => row.countP fun c => c == Cell.gem).sum

/-- A statistics value: either the string `N/A` or a number. -/
inductive StatVal where
  | na : StatVal
  | num : Nat → StatVal
deriving DecidableEq, Repr

/-- The stats dictionary returned next to every solved grid; `none` models
an absent key.  Wall-clock time (`time_consumed`) is not modelled. -/
structure Stats where
  cnf_clause_count : Option StatVal
  goal_count : Option StatVal
  trap_count : Option StatVal
  filled_count : Option StatVal
deriving DecidableEq, Repr

/-- The empty dictionary `{}` returned by the search strategies on failure. -/
def emptyStats : Stats := ⟨none, none, none, none⟩

/-- The stats dictionary built by `solve_with_brute_force` and
`solve_with_backtracking` on success. -/
def searchStats (sol : Grid) : Stats :=
  ⟨some StatVal.na, some (StatVal.num (countGems sol)),
    some (StatVal.num (countTraps sol)),
    some (StatVal.num (countTraps sol + countGems sol))⟩

/-! ### CNF generation (`generate_cnf_clauses`)

The source collects clauses in a Python `set` of sorted tuples.  We model
the set as a duplicate-free list in insertion order (`insertClause` skips
clauses already present); theorem `c8` quantifies over the arbitrary
iteration order a Python set exposes when it is converted back to a list.
The pysat pieces are external: `IDPool` is modelled as a fixed bijection
from coordinates to positive variable ids, and `CardEnc.atmost/atleast`
are opaque clause-producing functions passed in as parameters. -/

/-- Modelled from the spec: the `VariableMap` of pysat's `IDPool` is a
bijection between grid coordinates and boolean variable identifiers (spec
section 3); the concrete ids it allocates are irrelevant to every claim. -/
def varId (N i j : Nat) : Int :=
  Int.ofNat (i * N + j + 1)

/-- Insertion into the clause set: a no-op when the clause is present. -/
def insertClause (s : List (List Int)) (c : List Int) : List (List Int) :=
  if c ∈ s then s else s ++ [c]

/-- `generate_cnf_clauses(grid)` of src/main.py, parameterized by the
external `CardEnc.atmost` / `CardEnc.atleast` clause generators: unit
clauses for known `T`/`G` cells, then for every numbered cell the two
cardinality passes over the variables of all its neighbors, every
cardinality clause sorted before insertion. -/
def generate_cnf_clauses (am al : List Int → Nat → List (List Int))
    (g : Grid) : List (List Int) :=
  let N := g.length
  let s1 := (coordsOf N).foldl
    (fun s p =>
      match cellAt g p.1 p.2 with
      | Cell.trap => insertClause s [varId N p.1 p.2]
      | Cell.gem => insertClause s [-varId N p.1 p.2]
      | _ => s) []
  (coordsOf N).foldl
    (fun s p =>
      match cellAt g p.1 p.2 with
      | Cell.clue n =>
          let nv := (get_neighbors p.1 p.2 N).map fun q => varId N q.1 q.2
          let s2 := (am nv n).foldl
            (fun t cl => insertClause t (cl.insertionSort (· ≤ ·))) s
          (al nv n).foldl
            (fun t cl => insertClause t (cl.insertionSort (· ≤ ·))) s2
      | _ => s) s1

/-! ### The SAT strategy (`solve_with_pysat`)

The clause-solving engine is an external oracle (spec sections 4.3 and 6),
so `solve_with_pysat` takes the oracle as a parameter.  Its contract is
semantic: a returned valuation satisfies the constraints the clause set
encodes. -/

/-- A boolean valuation of the per-cell variables, shaped like the grid. -/
abbrev Valuation := List (List Bool)

/-- The truth value a valuation gives the variable of cell `(i, j)`. -/
def vLookup (v : Valuation) (i j : Nat) : Bool :=
  (v.getD i []).getD j false

/-- Modelled from the spec: what the generated clause set means, assuming
the external `CardEnc` encodings are correct (spec section 4.2: clauses
enforce that exactly `n` of the neighbor variables are true, and unit
clauses fix the variables of known `T`/`G` cells).  Note that, exactly as
in `generate_cnf_clauses`, *every* neighbor of a numbered cell contributes
its variable to the cardinality constraint — including neighbors that are
themselves numbered cells. -/
def satisfiesCNF (g : Grid) (v : Valuation) : Bool :=
  (coordsOf g.length).all fun p =>
    match cellAt g p.1 p.2 with
    | Cell.trap => vLookup v p.1 p.2
    | Cell.gem => !vLookup v p.1 p.2
    | Cell.clue n =>
        ((get_neighbors p.1 p.2 g.length).countP fun q =>
          vLookup v q.1 q.2) == n
    | Cell.unknown => true

/-- Modelled from the spec: soundness half of the SAT oracle contract
(spec section 4.3) — a valuation the oracle returns satisfies every
clause, i.e. the semantic constraints of the encoding. -/
def oracleSound (oracle : Grid → Option Valuation) : Prop :=
  ∀ g v, oracle g = some v → satisfiesCNF g v = true

/-- All length-`k` tuples over `[True, False]` in the order
`itertools.product([True, False], repeat=k)` enumerates them: the leftmost
position varies slowest and `True` precedes `False`. -/
def allAssignments : Nat → List (List Bool)
  | 0 => [[]]
  | k + 1 => [true, false].flatMap fun b => (allAssignments k).map fun t => b :: t

/-- Every `N × N` boolean table, used by the executable reference oracle. -/
def allValuations (N : Nat) : List Valuation :=
  (allAssignments (N * N)).map fun bits =>
    (List.range N).map fun i => (List.range N).map fun j =>
      bits.getD (i * N + j) false

/-- An executable stand-in for the external Glucose3 solver: scan every
valuation and return the first satisfying one. -/
def defaultOracle (g : Grid) : Option Valuation :=
  (allValuations g.length).find? fun v => satisfiesCNF g v

/-- A degenerate `CardEnc` stand-in producing no clauses, used to
instantiate theorems at concrete inputs. -/
def nullCard : List Int → Nat → List (List Int) := fun _ _ => []

/-- The solution-extraction loop of `solve_with_pysat`: walk the copy in
row-major order and overwrite each still-`'_'` cell with `T` when its
variable is true, else `G`. -/
def extractSolution (g : Grid) (v : Valuation) : Grid :=
  (coordsOf g.length).foldl
    (fun sol p =>
      if cellAt sol p.1 p.2 == Cell.unknown then
        setCell sol p.1 p.2 (if vLookup v p.1 p.2 then Cell.trap else Cell.gem)
      else sol) g

/-- The counting loop at the end of `solve_with_pysat`: one pass that
accumulates `(trap_count, goal_count, filled_count)`. -/
def countStats (g : Grid) : Nat × Nat × Nat :=
  (coordsOf g.length).foldl
    (fun acc p =>
      match cellAt g p.1 p.2 with
      | Cell.trap => (acc.1 + 1, acc.2.1, acc.2.2 + 1)
      | Cell.gem => (acc.1, acc.2.1 + 1, acc.2.2 + 1)
      | _ => acc) (0, 0, 0)

/-- `solve_with_pysat(grid)` of src/main.py with the external solver as an
oracle parameter: generate the clauses, ask the oracle, and on success
extract the solution from the model and compute the stats. -/
def solve_with_pysat (oracle : Grid → Option Valuation)
    (am al : List Int → Nat → List (List Int)) (g : Grid) :
    Option Grid × Stats :=
  let clauseCount := (generate_cnf_clauses am al g).length
  match oracle g with
  | none => (none, ⟨some (StatVal.num clauseCount), none, none, none⟩)
  | some v =>
      let sol := extractSolution g v
      let c := countStats sol
      (some sol,
        ⟨some (StatVal.num clauseCount), some (StatVal.num c.2.1),
          some (StatVal.num c.1), some (StatVal.num c.2.2)⟩)

/-! ### Brute force (`solve_with_brute_force`) -/

/-- Overwrite the listed cells with the assignment (`True ↦ T`,
`False ↦ G`), as the candidate-building loop of the source does. -/
def placeAssignment (g : Grid) (us : List (Nat × Nat)) (asg : List Bool) :
    Grid :=
  (us.zip asg).foldl
    (fun c pb => setCell c pb.1.1 pb.1.2 (if pb.2 then Cell.trap else Cell.gem)) g

/-- `solve_with_brute_force(grid)` of src/main.py: walk the Cartesian
product of `[True, False]` over the unknown cells, materialize each
candidate on a fresh copy, and return the first one passing
`is_valid_assignment`.  Failure returns `(None, {})`. -/
def solve_with_brute_force (g : Grid) : Option Grid × Stats :=
  let us := unknownsOf g
  match (allAssignments us.length).findSome? fun asg =>
      let cand := placeAssignment g us asg
      if is_valid_assignment cand then some cand else none with
  | some cand => (some cand, searchStats cand)
  | none => (none, emptyStats)

/-! ### Backtracking (`solve_with_backtracking`)

The recursion mutates one shared candidate grid and reverts every failing
assignment; `backtrackM` threads that state explicitly and returns the
final grid next to the result, so the assign-then-revert discipline is
itself provable.  The Python index into the unknown list becomes the list
suffix still to assign. -/

/-- The half-open range `range(max(0, r-1), min(N, r+2))` scanned by the
local consistency check. -/
def boxList (r N : Nat) : List Nat :=
  List.range' (r - 1) (min N (r + 2) - (r - 1))

/-- `is_partial_consistent(candidate, r, c)` of src/main.py: for every
numbered cell in the 3×3 box around `(r, c)`, the traps already placed
among its neighbors must not exceed the clue, and must equal it once no
neighbor is `'_'` anymore. -/
def is_partial_consistent (cand : Grid) (r c : Nat) : Bool :=
  let N := cand.length
  (boxList r N).all fun i => (boxList c N).all fun j =>
    match cellAt cand i j with
    | Cell.clue n =>
        let nbs := get_neighbors i j N
        let cnt := nbs.countP fun q => cellAt cand q.1 q.2 == Cell.trap
        let allAssigned := nbs.all fun q => !(cellAt cand q.1 q.2 == Cell.unknown)
        decide (cnt ≤ n) && (!allAssigned || cnt == n)
    | _ => true

/-- Python truthiness of `result` in `if result:`: `None` and the empty
grid are both falsy. -/
def truthy : Option Grid → Bool
  | some sol => !sol.isEmpty
  | none => false

/-- The recursive `backtrack(index, candidate)` of src/main.py over the
remaining unknown cells, returning `(result, final candidate state)`.
Each branch sets the cell, prunes with the local check, and restores the
cell to `'_'` whenever it moves on. -/
def backtrackM : List (Nat × Nat) → Grid → Option Grid × Grid
  | [], cand => (if is_valid_assignment cand then some cand else none, cand)
  | (i, j) :: us, cand =>
      let c1 := setCell cand i j Cell.trap
      let r1 := if is_partial_consistent c1 i j then backtrackM us c1 else (none, c1)
      if truthy r1.1 then r1
      else
        let c2 := setCell (setCell r1.2 i j Cell.unknown) i j Cell.gem
        let r2 := if is_partial_consistent c2 i j then backtrackM us c2 else (none, c2)
        if truthy r2.1 then r2
        else (none, setCell r2.2 i j Cell.unknown)

/-- `solve_with_backtracking(grid)` of src/main.py: run the recursion on a
copy of the grid (copies are identities here) and package the result; the
final `if result:` uses Python truthiness. -/
def solve_with_backtracking (g : Grid) : Option Grid × Stats :=
  match (backtrackM (unknownsOf g) g).1 with
  | some sol =>
      if sol.isEmpty then (none, emptyStats) else (some sol, searchStats sol)
  | none => (none, emptyStats)

/-! ### Claim-side reference definitions -/

/-- The pure recursion the backtracking claim describes: same order (the
cell's `Trap` branch before its `Gem` branch), same local pruning, same
final full validity check, but with the revert-to-`Unknown` discipline
implicit in purity.  Compared against `backtrackM` in theorem `c2`. -/
def backtrackClaim : List (Nat × Nat) → Grid → Option Grid
  | [], cand => if is_valid_assignment cand then some cand else none
  | (i, j) :: us, cand =>
      let cT := setCell cand i j Cell.trap
      let rT := if is_partial_consistent cT i j then backtrackClaim us cT else none
      if truthy rT then rT
      else
        let cG := setCell cand i j Cell.gem
        let rG := if is_partial_consistent cG i j then backtrackClaim us cG else none
        if truthy rG then rG else none

/-- All full completions of `cand` over the listed cells, in the shared
search order of both strategies: at each cell `Trap` before `Gem`. -/
def completions (cand : Grid) : List (Nat × Nat) → List Grid
  | [] => [cand]
  | (i, j) :: us =>
      completions (setCell cand i j Cell.trap) us ++
        completions (setCell cand i j Cell.gem) us

/-- Strict row-major (lexicographic) order on coordinates. -/
def lexLt (p q : Nat × Nat) : Prop :=
  p.1 < q.1 ∨ (p.1 = q.1 ∧ p.2 < q.2)

/-- The unsatisfiable-encoding exhibit for the validity round-trip claim:
clue `1` next to clue `0`, two unknown cells. -/
def gBug : Grid :=
  [[Cell.clue 1, Cell.clue 0], [Cell.unknown, Cell.unknown]]

/-- What the SAT strategy returns on `gBug`: both unknowns become gems, so
the clue `1` has no trap neighbor and the grid is invalid. -/
def gBugResult : Grid :=
  [[Cell.clue 1, Cell.clue 0], [Cell.gem, Cell.gem]]

/-- The spec's concrete 2×2 scenario: clue `1` at the corner. -/
def gScen : Grid :=
  [[Cell.clue 1, Cell.unknown], [Cell.unknown, Cell.unknown]]

/-! ### Basic lemmas about cells, rows and coordinates -/

theorem length_setCell (g : Grid) (i j : Nat) (v : Cell) :
    (setCell g i j v).length = g.length := by
  simp [setCell]

theorem rowLen_setCell (g : Grid) (i j : Nat) (v : Cell) (k : Nat) :
    ((setCell g i j v).getD k []).length = (g.getD k []).length := by
  unfold setCell
  simp only [List.getD_eq_getElem?_getD, List.getElem?_set]
  split
  · next h =>
      subst h
      split
      · next hi => simp [List.getD_eq_getElem?_getD, List.getElem?_eq_getElem hi]
      · next hi =>
          rw [List.getElem?_eq_none (Nat.le_of_not_lt hi)]
  · rfl

theorem isSquare_iff {g : Grid} :
    isSquare g = true ↔ ∀ k, k < g.length → (g.getD k []).length = g.length := by
  simp only [isSquare, List.all_eq_true, beq_iff_eq]
  constructor
  · intro h k hk
    refine h (g.getD k []) ?_
    rw [List.getD_eq_getElem?_getD, List.getElem?_eq_getElem hk]
    exact List.getElem_mem hk
  · intro h row hrow
    rcases List.getElem_of_mem hrow with ⟨k, hk, hrk⟩
    have := h k hk
    rw [List.getD_eq_getElem?_getD, List.getElem?_eq_getElem hk] at this
    simp only [Option.getD_some] at this
    exact hrk ▸ this

theorem isSquare_setCell (g : Grid) (i j : Nat) (v : Cell) :
    isSquare (setCell g i j v) = isSquare g := by
  refine Bool.eq_iff_iff.mpr ?_
  rw [isSquare_iff, isSquare_iff]
  constructor
  · intro h k hk
    have := h k (by rw [length_setCell]; exact hk)
    rw [rowLen_setCell, length_setCell] at this
    exact this
  · intro h k hk
    rw [rowLen_setCell, length_setCell]
    exact h k (by rw [length_setCell] at hk; exact hk)

theorem list_set_self {α : Type} (l : List α) (i : Nat) (h : i < l.length) :
    l.set i l[i] = l := by
  apply List.ext_getElem?
  intro n
  rw [List.getElem?_set]
  split
  · next hin => subst hin; simp [h, List.getElem?_eq_getElem h]
  · rfl

theorem cellAt_setCell_ne (g : Grid) {i j i2 j2 : Nat} (v : Cell)
    (h : i2 ≠ i ∨ j2 ≠ j) :
    cellAt (setCell g i j v) i2 j2 = cellAt g i2 j2 := by
  unfold cellAt setCell
  by_cases hii : i = i2
  · subst hii
    have hj : j ≠ j2 := fun hh => by
      rcases h with h | h
      · exact h rfl
      · exact h hh.symm
    rcases Nat.lt_or_ge i g.length with hi | hi
    · rw [List.getD_eq_getElem?_getD (g.set _ _) i,
        List.getElem?_set_self (by simpa using hi), Option.getD_some,
        List.getD_eq_getElem?_getD _ j2, List.getElem?_set_ne hj,
        List.getD_eq_getElem?_getD (g.getD i []) j2]
    · rw [List.set_eq_of_length_le hi]
  · rw [List.getD_eq_getElem?_getD (g.set _ _) i2, List.getElem?_set_ne hii,
      List.getD_eq_getElem?_getD g i2]

theorem cellAt_setCell_self (g : Grid) {i j : Nat} (v : Cell)
    (hi : i < g.length) (hj : j < (g.getD i []).length) :
    cellAt (setCell g i j v) i j = v := by
  unfold cellAt setCell
  rw [List.getD_eq_getElem?_getD (g.set _ _) i,
    List.getElem?_set_self (by simpa using hi), Option.getD_some,
    List.getD_eq_getElem?_getD _ j, List.getElem?_set_self hj, Option.getD_some]

theorem setCell_setCell (g : Grid) (i j : Nat) (v w : Cell) :
    setCell (setCell g i j v) i j w = setCell g i j w := by
  unfold setCell
  rcases Nat.lt_or_ge i g.length with hi | hi
  · have hrow : (g.set i ((g.getD i []).set j v)).getD i [] = (g.getD i []).set j v := by
      rw [List.getD_eq_getElem?_getD, List.getElem?_set]
      simp [hi]
    rw [hrow, List.set_set, List.set_set]
  · rw [List.set_eq_of_length_le hi, List.set_eq_of_length_le hi]

theorem setCell_unknown_self (g : Grid) {i j : Nat}
    (h : cellAt g i j = Cell.unknown) :
    setCell g i j Cell.unknown = g := by
  unfold setCell
  rcases Nat.lt_or_ge i g.length with hi | hi
  · have hgi : g.getD i [] = g[i] := by
      rw [List.getD_eq_getElem?_getD, List.getElem?_eq_getElem hi, Option.getD_some]
    rcases Nat.lt_or_ge j (g.getD i []).length with hj | hj
    · have hcell : (g.getD i [])[j] = Cell.unknown := by
        unfold cellAt at h
        rw [List.getD_eq_getElem?_getD _ j, List.getElem?_eq_getElem hj,
          Option.getD_some] at h
        exact h
      have h2 : (g.getD i []).set j Cell.unknown = g.getD i [] := by
        rw [← hcell]
        exact list_set_self (g.getD i []) j hj
      rw [h2, hgi]
      exact list_set_self g i hi
    · rw [List.set_eq_of_length_le hj, hgi]
      exact list_set_self g i hi
  · exact List.set_eq_of_length_le hi

theorem mem_coordsOf {N : Nat} {p : Nat × Nat} :
    p ∈ coordsOf N ↔ p.1 < N ∧ p.2 < N := by
  unfold coordsOf
  rw [List.mem_flatMap]
  constructor
  · rintro ⟨i, hi, hp⟩
    rcases List.mem_map.mp hp with ⟨j, hj, rfl⟩
    exact ⟨List.mem_range.mp hi, List.mem_range.mp hj⟩
  · rintro ⟨h1, h2⟩
    exact ⟨p.1, List.mem_range.mpr h1,
      List.mem_map.mpr ⟨p.2, List.mem_range.mpr h2, rfl⟩⟩

theorem lexLt_ne {p q : Nat × Nat} (h : lexLt p q) : p ≠ q := by
  rintro rfl
  rcases h with h | ⟨_, h⟩ <;> exact Nat.lt_irrefl _ h

theorem pairwise_lexLt_coordsOf (N : Nat) : (coordsOf N).Pairwise lexLt := by
  unfold coordsOf
  rw [List.pairwise_flatMap]
  constructor
  · intro i _
    rw [List.pairwise_map]
    exact (List.pairwise_lt_range N).imp fun h => Or.inr ⟨rfl, h⟩
  · refine (List.pairwise_lt_range N).imp ?_
    intro a b hab x hx y hy
    rcases List.mem_map.mp hx with ⟨j1, _, rfl⟩
    rcases List.mem_map.mp hy with ⟨j2, _, rfl⟩
    exact Or.inl hab

theorem nodup_coordsOf (N : Nat) : (coordsOf N).Nodup :=
  (pairwise_lexLt_coordsOf N).imp lexLt_ne

theorem mem_unknownsOf {g : Grid} {p : Nat × Nat} :
    p ∈ unknownsOf g ↔
      p.1 < g.length ∧ p.2 < g.length ∧ cellAt g p.1 p.2 = Cell.unknown := by
  unfold unknownsOf
  rw [List.mem_filter, mem_coordsOf, beq_iff_eq]
  tauto

theorem pairwise_lexLt_unknownsOf (g : Grid) :
    (unknownsOf g).Pairwise lexLt :=
  (pairwise_lexLt_coordsOf g.length).filter _

theorem nodup_unknownsOf (g : Grid) : (unknownsOf g).Nodup :=
  (pairwise_lexLt_unknownsOf g).imp lexLt_ne

theorem is_valid_iff {g : Grid} :
    is_valid_assignment g = true ↔
      ∀ i j n, i < g.length → j < g.length → cellAt g i j = Cell.clue n →
        ((get_neighbors i j g.length).countP fun q =>
          cellAt g q.1 q.2 == Cell.trap) = n := by
  unfold is_valid_assignment
  rw [List.all_eq_true]
  constructor
  · intro h i j n hi hj hc
    have := h (i, j) (mem_coordsOf.mpr ⟨hi, hj⟩)
    simp only [hc, beq_iff_eq] at this
    exact this
  · intro h p hp
    rcases mem_coordsOf.mp hp with ⟨h1, h2⟩
    cases hc : cellAt g p.1 p.2 with
    | clue n => simp only [beq_iff_eq]; exact h p.1 p.2 n h1 h2 hc
    | unknown => rfl
    | trap => rfl
    | gem => rfl

/-! ### The enumeration of candidate assignments -/

theorem allAssignments_succ (k : Nat) :
    allAssignments (k + 1) =
      ((allAssignments k).map fun t => true :: t) ++
        ((allAssignments k).map fun t => false :: t) := by
  simp [allAssignments]

theorem length_allAssignments (k : Nat) :
    (allAssignments k).length = 2 ^ k := by
  induction k with
  | zero => rfl
  | succ k ih =>
      rw [allAssignments_succ, List.length_append, List.length_map,
        List.length_map, ih, pow_succ]
      omega

theorem length_of_mem_allAssignments {k : Nat} {a : List Bool}
    (h : a ∈ allAssignments k) : a.length = k := by
  induction k generalizing a with
  | zero => simp [allAssignments] at h; simp [h]
  | succ k ih =>
      rw [allAssignments_succ] at h
      rcases List.mem_append.mp h with h | h <;>
        · rcases List.mem_map.mp h with ⟨t, ht, rfl⟩
          simp [ih ht]

theorem nodup_allAssignments (k : Nat) : (allAssignments k).Nodup := by
  induction k with
  | zero => simp [allAssignments]
  | succ k ih =>
      rw [allAssignments_succ, List.nodup_append]
      refine ⟨ih.map fun x y h => (List.cons.injEq _ _ _ _).mp h |>.2,
        ih.map fun x y h => (List.cons.injEq _ _ _ _).mp h |>.2, ?_⟩
      intro a ha hb
      rcases List.mem_map.mp ha with ⟨t1, _, rfl⟩
      rcases List.mem_map.mp hb with ⟨t2, _, h⟩
      exact absurd ((List.cons.injEq _ _ _ _).mp h).1.symm (by simp)

theorem findSome?_guard {α β : Type} (f : α → β) (p : β → Bool) (l : List α) :
    (l.findSome? fun a => if p (f a) then some (f a) else none) =
      (l.map f).find? p := by
  induction l with
  | nil => rfl
  | cons a l ih =>
      rw [List.findSome?_cons, List.map_cons, List.find?_cons]
      by_cases h : p (f a) <;> simp [h, ih]

theorem map_place_eq_completions (us : List (Nat × Nat)) (g : Grid) :
    (allAssignments us.length).map (placeAssignment g us) = completions g us := by
  induction us generalizing g with
  | nil => rfl
  | cons p us ih =>
      rcases p with ⟨i, j⟩
      rw [List.length_cons, allAssignments_succ, List.map_append,
        List.map_map, List.map_map]
      show ((allAssignments us.length).map
          (placeAssignment (setCell g i j Cell.trap) us)) ++
        ((allAssignments us.length).map
          (placeAssignment (setCell g i j Cell.gem) us)) = _
      rw [ih, ih]
      rfl

/-! ### Completions: frame and coverage facts -/

theorem length_of_mem_completions {us : List (Nat × Nat)} {c sol : Grid}
    (h : sol ∈ completions c us) : sol.length = c.length := by
  induction us generalizing c with
  | nil =>
      simp only [completions, List.mem_singleton] at h
      rw [h]
  | cons p us ih =>
      rcases p with ⟨i, j⟩
      rw [completions] at h
      rcases List.mem_append.mp h with h | h <;>
        rw [ih h, length_setCell]

theorem ne_coords_of_ne {q : Nat × Nat} {a b : Nat} (h : q ≠ (a, b)) :
    q.1 ≠ a ∨ q.2 ≠ b := by
  by_contra hcon
  push_neg at hcon
  exact h (Prod.ext hcon.1 hcon.2)

theorem completions_preserve {us : List (Nat × Nat)} {c sol : Grid}
    (hu : ∀ p ∈ us, cellAt c p.1 p.2 = Cell.unknown) (hnd : us.Nodup)
    (h : sol ∈ completions c us) :
    ∀ i j, cellAt c i j ≠ Cell.unknown → cellAt sol i j = cellAt c i j := by
  induction us generalizing c with
  | nil =>
      simp only [completions, List.mem_singleton] at h
      subst h
      exact fun _ _ _ => rfl
  | cons q us ih =>
      rcases q with ⟨a, b⟩
      have hab : cellAt c a b = Cell.unknown := hu (a, b) (List.mem_cons_self _ _)
      have hnotin : (a, b) ∉ us := (List.nodup_cons.mp hnd).1
      have hnd2 : us.Nodup := (List.nodup_cons.mp hnd).2
      rw [completions] at h
      intro i j hij
      have hne : i ≠ a ∨ j ≠ b := by
        by_contra hcon
        push_neg at hcon
        rcases hcon with ⟨rfl, rfl⟩
        exact hij hab
      have step : ∀ v : Cell, sol ∈ completions (setCell c a b v) us →
          cellAt sol i j = cellAt c i j := by
        intro v hmem
        have hu2 : ∀ p ∈ us, cellAt (setCell c a b v) p.1 p.2 = Cell.unknown := by
          intro p hp
          rw [cellAt_setCell_ne _ _ (ne_coords_of_ne fun hh => hnotin (hh ▸ hp))]
          exact hu p (List.mem_cons_of_mem _ hp)
        have hset : cellAt (setCell c a b v) i j = cellAt c i j :=
          cellAt_setCell_ne _ _ hne
        rw [← hset]
        exact ih hu2 hnd2 hmem i j (by rw [hset]; exact hij)
      rcases List.mem_append.mp h with h | h
      · exact step Cell.trap h
      · exact step Cell.gem h

theorem completions_assigned {us : List (Nat × Nat)} {c sol : Grid}
    (hsq : isSquare c = true)
    (hu : ∀ p ∈ us, cellAt c p.1 p.2 = Cell.unknown) (hnd : us.Nodup)
    (hrange : ∀ p ∈ us, p.1 < c.length ∧ p.2 < c.length)
    (h : sol ∈ completions c us) :
    ∀ p ∈ us, cellAt sol p.1 p.2 = Cell.trap ∨ cellAt sol p.1 p.2 = Cell.gem := by
  induction us generalizing c with
  | nil => intro p hp; cases hp
  | cons q us ih =>
      rcases q with ⟨a, b⟩
      have hnotin : (a, b) ∉ us := (List.nodup_cons.mp hnd).1
      have hnd2 : us.Nodup := (List.nodup_cons.mp hnd).2
      have hr := hrange (a, b) (List.mem_cons_self _ _)
      have hrow : b < (c.getD a []).length := by
        rw [isSquare_iff.mp hsq a hr.1]; exact hr.2
      rw [completions] at h
      have step : ∀ v : Cell, v = Cell.trap ∨ v = Cell.gem →
          sol ∈ completions (setCell c a b v) us →
          ∀ p ∈ (a, b) :: us,
            cellAt sol p.1 p.2 = Cell.trap ∨ cellAt sol p.1 p.2 = Cell.gem := by
        intro v hv hmem
        have hu2 : ∀ p ∈ us, cellAt (setCell c a b v) p.1 p.2 = Cell.unknown := by
          intro p hp
          rw [cellAt_setCell_ne _ _ (ne_coords_of_ne fun hh => hnotin (hh ▸ hp))]
          exact hu p (List.mem_cons_of_mem _ hp)
        have hrange2 : ∀ p ∈ us,
            p.1 < (setCell c a b v).length ∧ p.2 < (setCell c a b v).length := by
          intro p hp
          rw [length_setCell]
          exact hrange p (List.mem_cons_of_mem _ hp)
        have hsq2 : isSquare (setCell c a b v) = true := by
          rw [isSquare_setCell]; exact hsq
        intro p hp
        rcases List.mem_cons.mp hp with rfl | hp
        · have hset : cellAt (setCell c a b v) a b = v :=
            cellAt_setCell_self c v hr.1 hrow
          have hvne : cellAt (setCell c a b v) a b ≠ Cell.unknown := by
            rw [hset]
            rcases hv with rfl | rfl <;> simp
          have := completions_preserve hu2 hnd2 hmem a b hvne
          rw [this, hset]
          exact hv.imp (fun e => e) (fun e => e)
        · exact ih hsq2 hu2 hnd2 hrange2 hmem p hp
      rcases List.mem_append.mp h with h | h
      · exact step Cell.trap (Or.inl rfl) h
      · exact step Cell.gem (Or.inr rfl) h

/-! ### The backtracking recursion: state discipline and structure -/

theorem truthy_eq_true {r : Option Grid} :
    truthy r = true ↔ ∃ sol, r = some sol ∧ sol ≠ [] := by
  cases r with
  | none => simp [truthy]
  | some sol => simp [truthy, List.isEmpty_iff]

theorem truthy_none : truthy none = false := rfl

/-- One induction giving the three basic facts about the recursion: a
successful call returns a valid grid of unchanged dimensions and leaves
the shared candidate equal to the solution, the shared candidate never
changes length, and a failed call restores the shared candidate exactly —
the assign-then-revert discipline of spec section 5. -/
theorem backtrackM_props (us : List (Nat × Nat)) :
    ∀ c : Grid,
      (∀ sol, (backtrackM us c).1 = some sol →
        sol.length = c.length ∧ (backtrackM us c).2 = sol ∧
          is_valid_assignment sol = true) ∧
      (backtrackM us c).2.length = c.length ∧
      ((∀ p ∈ us, cellAt c p.1 p.2 = Cell.unknown) → us.Nodup →
        (backtrackM us c).1 = none → (backtrackM us c).2 = c) := by
  induction us with
  | nil =>
      intro c
      refine ⟨?_, rfl, fun _ _ _ => rfl⟩
      intro sol h
      by_cases hv : is_valid_assignment c
      · have h1 : (backtrackM [] c).1 = some c := by
          show (if is_valid_assignment c then some c else none, c).1 = some c
          rw [if_pos hv]
        rw [h1] at h
        cases h
        exact ⟨rfl, rfl, hv⟩
      · have h1 : (backtrackM [] c).1 = none := by
          show (if is_valid_assignment c then some c else none, c).1 = none
          rw [if_neg hv]
        rw [h1] at h
        cases h
  | cons q us ih =>
      rcases q with ⟨i, j⟩
      intro c
      set c1 := setCell c i j Cell.trap with hc1def
      set r1 := (if is_partial_consistent c1 i j then backtrackM us c1
        else (none, c1)) with hr1def
      set c2 := setCell (setCell r1.2 i j Cell.unknown) i j Cell.gem with hc2def
      set r2 := (if is_partial_consistent c2 i j then backtrackM us c2
        else (none, c2)) with hr2def
      have hres : backtrackM ((i, j) :: us) c =
          (if truthy r1.1 then r1 else if truthy r2.1 then r2
            else (none, setCell r2.2 i j Cell.unknown)) := rfl
      have hr1len : r1.2.length = c.length := by
        rw [hr1def]
        split
        · rw [(ih c1).2.1, hc1def, length_setCell]
        · rw [hc1def, length_setCell]
      have hc2len : c2.length = c.length := by
        rw [hc2def, length_setCell, length_setCell, hr1len]
      have hr2len : r2.2.length = c.length := by
        rw [hr2def]
        split
        · rw [(ih c2).2.1, hc2len]
        · exact hc2len
      refine ⟨?_, ?_, ?_⟩
      · -- success facts
        intro sol h
        rw [hres] at h
        by_cases ht1 : truthy r1.1
        · rw [if_pos ht1] at h
          rw [hr1def] at h
          by_cases hp1 : is_partial_consistent c1 i j
          · rw [if_pos hp1] at h
            have hA := (ih c1).1 sol h
            refine ⟨by rw [hA.1, hc1def, length_setCell], ?_, hA.2.2⟩
            rw [hres, if_pos ht1, hr1def, if_pos hp1]
            exact hA.2.1
          · rw [if_neg hp1] at h
            cases h
        · rw [if_neg ht1] at h
          by_cases ht2 : truthy r2.1
          · rw [if_pos ht2] at h
            rw [hr2def] at h
            by_cases hp2 : is_partial_consistent c2 i j
            · rw [if_pos hp2] at h
              have hA := (ih c2).1 sol h
              refine ⟨by rw [hA.1, hc2len], ?_, hA.2.2⟩
              rw [hres, if_neg ht1, if_pos ht2, hr2def, if_pos hp2]
              exact hA.2.1
            · rw [if_neg hp2] at h
              cases h
          · rw [if_neg ht2] at h
            cases h
      · -- state length
        rw [hres]
        by_cases ht1 : truthy r1.1
        · rw [if_pos ht1]
          exact hr1len
        · rw [if_neg ht1]
          by_cases ht2 : truthy r2.1
          · rw [if_pos ht2]
            exact hr2len
          · rw [if_neg ht2]
            show (setCell r2.2 i j Cell.unknown).length = c.length
            rw [length_setCell, hr2len]
      · -- restoration on failure
        intro hu hnd hn
        have huij : cellAt c i j = Cell.unknown := hu (i, j) (List.mem_cons_self _ _)
        have hnotin : (i, j) ∉ us := (List.nodup_cons.mp hnd).1
        have hnd2 : us.Nodup := (List.nodup_cons.mp hnd).2
        have hu1 : ∀ p ∈ us, cellAt c1 p.1 p.2 = Cell.unknown := by
          intro p hp
          rw [hc1def,
            cellAt_setCell_ne _ _ (ne_coords_of_ne fun hh => hnotin (hh ▸ hp))]
          exact hu p (List.mem_cons_of_mem _ hp)
        rw [hres] at hn ⊢
        by_cases ht1 : truthy r1.1
        · rcases truthy_eq_true.mp ht1 with ⟨sol, hs, _⟩
          rw [if_pos ht1, hs] at hn
          cases hn
        · rw [if_neg ht1] at hn ⊢
          have hs1 : r1.2 = c1 := by
            rw [hr1def]
            by_cases hp1 : is_partial_consistent c1 i j
            · rw [if_pos hp1]
              cases hcase : (backtrackM us c1).1 with
              | none => exact (ih c1).2.2 hu1 hnd2 hcase
              | some sol =>
                  have hA := (ih c1).1 sol hcase
                  have hnil : sol = [] := by
                    by_contra hne
                    rw [hr1def, if_pos hp1] at ht1
                    exact ht1 (truthy_eq_true.mpr ⟨sol, hcase, hne⟩)
                  have hc1nil : c1 = [] := by
                    apply List.length_eq_zero.mp
                    rw [← hA.1, hnil]
                    rfl
                  rw [hA.2.1, hnil, hc1nil]
            · rw [if_neg hp1]
          have hc2eq : c2 = setCell c i j Cell.gem := by
            rw [hc2def, hs1, hc1def, setCell_setCell, setCell_setCell]
          have hu2 : ∀ p ∈ us, cellAt c2 p.1 p.2 = Cell.unknown := by
            intro p hp
            rw [hc2eq,
              cellAt_setCell_ne _ _ (ne_coords_of_ne fun hh => hnotin (hh ▸ hp))]
            exact hu p (List.mem_cons_of_mem _ hp)
          by_cases ht2 : truthy r2.1
          · rcases truthy_eq_true.mp ht2 with ⟨sol, hs, _⟩
            rw [if_pos ht2, hs] at hn
            cases hn
          · rw [if_neg ht2] at hn ⊢
            have hs2 : r2.2 = c2 := by
              rw [hr2def]
              by_cases hp2 : is_partial_consistent c2 i j
              · rw [if_pos hp2]
                cases hcase : (backtrackM us c2).1 with
                | none => exact (ih c2).2.2 hu2 hnd2 hcase
                | some sol =>
                    have hA := (ih c2).1 sol hcase
                    have hnil : sol = [] := by
                      by_contra hne
                      rw [hr2def, if_pos hp2] at ht2
                      exact ht2 (truthy_eq_true.mpr ⟨sol, hcase, hne⟩)
                    have hc2nil : c2 = [] := by
                      apply List.length_eq_zero.mp
                      rw [← hA.1, hnil]
                      rfl
                    rw [hA.2.1, hnil, hc2nil]
              · rw [if_neg hp2]
            show setCell r2.2 i j Cell.unknown = c
            rw [hs2, hc2eq, setCell_setCell]
            exact setCell_unknown_self c huij

theorem mem_boxList {n r N : Nat} (h : n ∈ boxList r N) : n < N := by
  rw [boxList, List.mem_range'_1] at h
  omega

/-- Soundness of the local pruning check: a partial candidate that extends
to some fully valid grid passes `is_partial_consistent` at every focus
cell, so pruning never cuts off a branch that still contains a valid
completion. -/
theorem is_partial_consistent_of_extends {c sol : Grid}
    (hlen : sol.length = c.length)
    (hext : ∀ i j, cellAt c i j ≠ Cell.unknown → cellAt sol i j = cellAt c i j)
    (hval : is_valid_assignment sol = true) :
    ∀ r c2, is_partial_consistent c r c2 = true := by
  intro r c2
  unfold is_partial_consistent
  rw [List.all_eq_true]
  intro i hi
  rw [List.all_eq_true]
  intro j hj
  cases hcell : cellAt c i j with
  | unknown => rfl
  | trap => rfl
  | gem => rfl
  | clue n =>
      simp only
      have hiN : i < c.length := mem_boxList hi
      have hjN : j < c.length := mem_boxList hj
      have hsol : cellAt sol i j = Cell.clue n := by
        rw [hext i j (by rw [hcell]; exact fun hh => Cell.noConfusion hh), hcell]
      have hcount := is_valid_iff.mp hval i j n (by omega) (by omega) hsol
      rw [hlen] at hcount
      have hmono : ((get_neighbors i j c.length).countP fun q =>
            cellAt c q.1 q.2 == Cell.trap) ≤
          ((get_neighbors i j c.length).countP fun q =>
            cellAt sol q.1 q.2 == Cell.trap) := by
        apply List.countP_mono_left
        intro q _ hq
        rw [beq_iff_eq] at hq ⊢
        rw [hext q.1 q.2 (by rw [hq]; exact fun hh => Cell.noConfusion hh), hq]
      rw [Bool.and_eq_true]
      constructor
      · exact decide_eq_true (by omega)
      · rw [Bool.or_eq_true]
        by_cases hall : (get_neighbors i j c.length).all fun q =>
            !(cellAt c q.1 q.2 == Cell.unknown)
        · right
          rw [beq_iff_eq, ← hcount]
          apply List.countP_congr
          intro q hq
          rw [List.all_eq_true] at hall
          have hne : cellAt c q.1 q.2 ≠ Cell.unknown := by
            have := hall q hq
            rw [Bool.not_eq_eq_eq_not, Bool.not_true, beq_eq_false_iff_ne] at this
            exact this
          rw [beq_iff_eq, beq_iff_eq, hext q.1 q.2 hne]
        · left
          rw [Bool.not_eq_true] at hall
          rw [hall, Bool.not_false]

/-- After a branch came back without a (truthy) solution, the shared
candidate is back to what it was before the branch. -/
theorem backtrackM_untruthy_state {us : List (Nat × Nat)} {d : Grid}
    (hu : ∀ p ∈ us, cellAt d p.1 p.2 = Cell.unknown) (hnd : us.Nodup)
    (hnt : ¬truthy (backtrackM us d).1 = true) :
    (backtrackM us d).2 = d := by
  cases hcase : (backtrackM us d).1 with
  | none => exact (backtrackM_props us d).2.2 hu hnd hcase
  | some sol =>
      have hA := (backtrackM_props us d).1 sol hcase
      have hnil : sol = [] := by
        by_contra hne
        exact hnt (truthy_eq_true.mpr ⟨sol, hcase, hne⟩)
      have hdnil : d = [] := by
        apply List.length_eq_zero.mp
        rw [← hA.1, hnil]
        rfl
      rw [hA.2.1, hnil, hdnil]

/-- The backtracking recursion computes exactly the first fully valid
completion of the candidate in its depth-first (`Trap` before `Gem`)
order: the pruning (sound by `is_partial_consistent_of_extends`) removes
only completion-free subtrees. -/
theorem backtrackM_eq_find (us : List (Nat × Nat)) :
    ∀ c : Grid, 0 < c.length →
      (∀ p ∈ us, cellAt c p.1 p.2 = Cell.unknown) → us.Nodup →
      (backtrackM us c).1 = (completions c us).find? is_valid_assignment := by
  induction us with
  | nil =>
      intro c _ _ _
      show (if is_valid_assignment c then some c else none) =
        [c].find? is_valid_assignment
      by_cases hv : is_valid_assignment c
      · simp [List.find?_cons, hv]
      · rw [Bool.not_eq_true] at hv
        simp [List.find?_cons, hv]
  | cons q us ih =>
      rcases q with ⟨i, j⟩
      intro c h0 hu hnd
      have hnotin : (i, j) ∉ us := (List.nodup_cons.mp hnd).1
      have hnd2 : us.Nodup := (List.nodup_cons.mp hnd).2
      set c1 := setCell c i j Cell.trap with hc1def
      have hu1 : ∀ p ∈ us, cellAt c1 p.1 p.2 = Cell.unknown := by
        intro p hp
        rw [hc1def,
          cellAt_setCell_ne _ _ (ne_coords_of_ne fun hh => hnotin (hh ▸ hp))]
        exact hu p (List.mem_cons_of_mem _ hp)
      set r1 := (if is_partial_consistent c1 i j then backtrackM us c1
        else (none, c1)) with hr1def
      set c2 := setCell (setCell r1.2 i j Cell.unknown) i j Cell.gem with hc2def
      set r2 := (if is_partial_consistent c2 i j then backtrackM us c2
        else (none, c2)) with hr2def
      have hres : (backtrackM ((i, j) :: us) c).1 =
          (if truthy r1.1 then r1 else if truthy r2.1 then r2
            else (none, setCell r2.2 i j Cell.unknown)).1 := rfl
      have branchEq : ∀ d : Grid, d.length = c.length →
          (∀ p ∈ us, cellAt d p.1 p.2 = Cell.unknown) →
          (if is_partial_consistent d i j then backtrackM us d
            else (none, d)).1 = (completions d us).find? is_valid_assignment := by
        intro d hdlen hud
        by_cases hp : is_partial_consistent d i j
        · rw [if_pos hp]
          exact ih d (by omega) hud hnd2
        · rw [if_neg hp]
          cases hfind : (completions d us).find? is_valid_assignment with
          | none => rfl
          | some sol =>
              exfalso
              have hmem := List.mem_of_find?_eq_some hfind
              have hvalid := List.find?_some hfind
              exact hp (is_partial_consistent_of_extends
                (length_of_mem_completions hmem)
                (completions_preserve hud hnd2 hmem) hvalid i j)
      have hcompl : completions c ((i, j) :: us) =
          completions c1 us ++ completions (setCell c i j Cell.gem) us := rfl
      rw [hres, hcompl, List.find?_append]
      have hF1 : r1.1 = (completions c1 us).find? is_valid_assignment := by
        rw [hr1def]
        exact branchEq c1 (by rw [hc1def, length_setCell]) hu1
      by_cases ht1 : truthy r1.1
      · rw [if_pos ht1]
        rcases truthy_eq_true.mp ht1 with ⟨sol, hs, _⟩
        rw [← hF1, hs]
        rfl
      · rw [if_neg ht1]
        have hl1 : (completions c1 us).find? is_valid_assignment = none := by
          cases hfind : (completions c1 us).find? is_valid_assignment with
          | none => rfl
          | some sol =>
              exfalso
              apply ht1
              apply truthy_eq_true.mpr
              refine ⟨sol, hF1.trans hfind, ?_⟩
              have hlen := length_of_mem_completions (List.mem_of_find?_eq_some hfind)
              rw [hc1def, length_setCell] at hlen
              intro hnil
              rw [hnil] at hlen
              simp at hlen
              omega
        rw [hl1, Option.none_or]
        have hs1 : r1.2 = c1 := by
          rw [hr1def]
          by_cases hp : is_partial_consistent c1 i j
          · rw [if_pos hp]
            apply backtrackM_untruthy_state hu1 hnd2
            rw [hr1def, if_pos hp] at ht1
            exact ht1
          · rw [if_neg hp]
        have hc2eq : c2 = setCell c i j Cell.gem := by
          rw [hc2def, hs1, hc1def, setCell_setCell, setCell_setCell]
        have hu2 : ∀ p ∈ us, cellAt c2 p.1 p.2 = Cell.unknown := by
          intro p hp
          rw [hc2eq,
            cellAt_setCell_ne _ _ (ne_coords_of_ne fun hh => hnotin (hh ▸ hp))]
          exact hu p (List.mem_cons_of_mem _ hp)
        have hF2 : r2.1 =
            (completions (setCell c i j Cell.gem) us).find? is_valid_assignment := by
          have h := branchEq c2 (by rw [hc2eq, length_setCell]) hu2
          rw [← hr2def] at h
          rw [hc2eq] at h
          exact h
        by_cases ht2 : truthy r2.1
        · rw [if_pos ht2]
          exact hF2
        · rw [if_neg ht2]
          show (none : Option Grid) = _
          symm
          cases hfind :
              (completions (setCell c i j Cell.gem) us).find? is_valid_assignment with
          | none => rfl
          | some sol =>
              exfalso
              apply ht2
              apply truthy_eq_true.mpr
              refine ⟨sol, hF2.trans hfind, ?_⟩
              have hlen := length_of_mem_completions (List.mem_of_find?_eq_some hfind)
              rw [length_setCell] at hlen
              intro hnil
              rw [hnil] at hlen
              simp at hlen
              omega

/-- The stateful recursion computes the same result as the pure recursion
of the claim: the assign / locally-check / recurse / revert discipline is
observationally a pure depth-first search. -/
theorem backtrackM_fst_eq_claim (us : List (Nat × Nat)) :
    ∀ c : Grid, (∀ p ∈ us, cellAt c p.1 p.2 = Cell.unknown) → us.Nodup →
      (backtrackM us c).1 = backtrackClaim us c := by
  induction us with
  | nil =>
      intro c _ _
      rfl
  | cons q us ih =>
      rcases q with ⟨i, j⟩
      intro c hu hnd
      have hnotin : (i, j) ∉ us := (List.nodup_cons.mp hnd).1
      have hnd2 : us.Nodup := (List.nodup_cons.mp hnd).2
      set c1 := setCell c i j Cell.trap with hc1def
      have hu1 : ∀ p ∈ us, cellAt c1 p.1 p.2 = Cell.unknown := by
        intro p hp
        rw [hc1def,
          cellAt_setCell_ne _ _ (ne_coords_of_ne fun hh => hnotin (hh ▸ hp))]
        exact hu p (List.mem_cons_of_mem _ hp)
      set r1 := (if is_partial_consistent c1 i j then backtrackM us c1
        else (none, c1)) with hr1def
      set c2 := setCell (setCell r1.2 i j Cell.unknown) i j Cell.gem with hc2def
      set r2 := (if is_partial_consistent c2 i j then backtrackM us c2
        else (none, c2)) with hr2def
      set cG := setCell c i j Cell.gem with hcGdef
      have huG : ∀ p ∈ us, cellAt cG p.1 p.2 = Cell.unknown := by
        intro p hp
        rw [hcGdef,
          cellAt_setCell_ne _ _ (ne_coords_of_ne fun hh => hnotin (hh ▸ hp))]
        exact hu p (List.mem_cons_of_mem _ hp)
      set rT := (if is_partial_consistent c1 i j then backtrackClaim us c1
        else none) with hrTdef
      set rG := (if is_partial_consistent cG i j then backtrackClaim us cG
        else none) with hrGdef
      have hres : (backtrackM ((i, j) :: us) c).1 =
          (if truthy r1.1 then r1 else if truthy r2.1 then r2
            else (none, setCell r2.2 i j Cell.unknown)).1 := rfl
      have hclaim : backtrackClaim ((i, j) :: us) c =
          (if truthy rT then rT else if truthy rG then rG else none) := rfl
      have hT : r1.1 = rT := by
        rw [hr1def, hrTdef]
        by_cases hp : is_partial_consistent c1 i j
        · rw [if_pos hp, if_pos hp]
          exact ih c1 hu1 hnd2
        · rw [if_neg hp, if_neg hp]
      rw [hres, hclaim]
      by_cases ht1 : truthy r1.1
      · rw [if_pos ht1, ← hT, if_pos ht1]
      · rw [if_neg ht1, ← hT, if_neg ht1]
        have hs1 : r1.2 = c1 := by
          rw [hr1def]
          by_cases hp : is_partial_consistent c1 i j
          · rw [if_pos hp]
            apply backtrackM_untruthy_state hu1 hnd2
            rw [hr1def, if_pos hp] at ht1
            exact ht1
          · rw [if_neg hp]
        have hc2eq : c2 = cG := by
          rw [hc2def, hs1, hc1def, setCell_setCell, setCell_setCell, hcGdef]
        have hG : r2.1 = rG := by
          rw [hr2def, hc2eq, hrGdef]
          by_cases hp : is_partial_consistent cG i j
          · rw [if_pos hp, if_pos hp]
            exact ih cG huG hnd2
          · rw [if_neg hp, if_neg hp]
        by_cases ht2 : truthy r2.1
        · rw [if_pos ht2, ← hG, if_pos ht2]
        · rw [if_neg ht2, ← hG, if_neg ht2]

/-- Declarative reading of the local consistency check: it passes at a
focus cell exactly when every numbered cell of the surrounding 3×3 box has
at most its clue's worth of traps placed, with equality once all of its
neighbors are assigned. -/
theorem is_partial_consistent_iff {cand : Grid} {r c : Nat} :
    is_partial_consistent cand r c = true ↔
      ∀ i j n, i ∈ boxList r cand.length → j ∈ boxList c cand.length →
        cellAt cand i j = Cell.clue n →
        ((get_neighbors i j cand.length).countP fun q =>
            cellAt cand q.1 q.2 == Cell.trap) ≤ n ∧
        ((∀ q ∈ get_neighbors i j cand.length,
            cellAt cand q.1 q.2 ≠ Cell.unknown) →
          ((get_neighbors i j cand.length).countP fun q =>
            cellAt cand q.1 q.2 == Cell.trap) = n) := by
  unfold is_partial_consistent
  rw [List.all_eq_true]
  constructor
  · intro h i j n hi hj hc
    have h2 := List.all_eq_true.mp (h i hi) j hj
    simp only [hc] at h2
    rw [Bool.and_eq_true] at h2
    refine ⟨of_decide_eq_true h2.1, ?_⟩
    intro hall
    have h3 := h2.2
    rw [Bool.or_eq_true] at h3
    rcases h3 with hcase | hcase
    · exfalso
      rw [Bool.not_eq_true'] at hcase
      have : ((get_neighbors i j cand.length).all fun q =>
          !(cellAt cand q.1 q.2 == Cell.unknown)) = true := by
        rw [List.all_eq_true]
        intro q hq
        rw [Bool.not_eq_true', beq_eq_false_iff_ne]
        exact hall q hq
      rw [this] at hcase
      cases hcase
    · exact beq_iff_eq.mp hcase
  · intro h i hi
    rw [List.all_eq_true]
    intro j hj
    cases hc : cellAt cand i j with
    | unknown => rfl
    | trap => rfl
    | gem => rfl
    | clue n =>
        simp only
        have hn := h i j n hi hj hc
        rw [Bool.and_eq_true]
        refine ⟨decide_eq_true hn.1, ?_⟩
        rw [Bool.or_eq_true]
        by_cases hall : ((get_neighbors i j cand.length).all fun q =>
            !(cellAt cand q.1 q.2 == Cell.unknown)) = true
        · right
          rw [beq_iff_eq]
          apply hn.2
          intro q hq
          have := List.all_eq_true.mp hall q hq
          rw [Bool.not_eq_true', beq_eq_false_iff_ne] at this
          exact this
        · left
          rw [Bool.not_eq_true] at hall
          rw [hall]
          rfl

/-- The branch-rejection condition of the claim, as the exact negation of
`is_partial_consistent`: some nearby clue is already over its count, or is
fully assigned with the wrong count. -/
theorem is_partial_consistent_false_iff {cand : Grid} {r c : Nat} :
    is_partial_consistent cand r c = false ↔
      ∃ i j n, i ∈ boxList r cand.length ∧ j ∈ boxList c cand.length ∧
        cellAt cand i j = Cell.clue n ∧
        (n < ((get_neighbors i j cand.length).countP fun q =>
            cellAt cand q.1 q.2 == Cell.trap) ∨
          ((∀ q ∈ get_neighbors i j cand.length,
              cellAt cand q.1 q.2 ≠ Cell.unknown) ∧
            ((get_neighbors i j cand.length).countP fun q =>
              cellAt cand q.1 q.2 == Cell.trap) ≠ n)) := by
  rw [← Bool.not_eq_true, is_partial_consistent_iff]
  push_neg
  constructor
  · rintro ⟨i, j, n, hi, hj, hc, hrest⟩
    refine ⟨i, j, n, hi, hj, hc, ?_⟩
    by_cases hle : ((get_neighbors i j cand.length).countP fun q =>
        cellAt cand q.1 q.2 == Cell.trap) ≤ n
    · right
      rcases hrest hle with ⟨hall, hne⟩
      exact ⟨hall, hne⟩
    · left
      omega
  · rintro ⟨i, j, n, hi, hj, hc, hcase⟩
    refine ⟨i, j, n, hi, hj, hc, ?_⟩
    intro hle
    rcases hcase with hlt | ⟨hall, hne⟩
    · omega
    · exact ⟨hall, hne⟩

/-! ### Generic fold preservation and the extraction loop -/

theorem foldl_preserve {α β : Type} {Q : α → Prop} {f : α → β → α}
    (hstep : ∀ s b, Q s → Q (f s b)) :
    ∀ (l : List β) (s : α), Q s → Q (l.foldl f s) := by
  intro l
  induction l with
  | nil => exact fun s h => h
  | cons b l ih => exact fun s h => ih _ (hstep s b h)

theorem extract_step_ne (v : Valuation) (sol : Grid) (p q : Nat × Nat)
    (hne : q.1 ≠ p.1 ∨ q.2 ≠ p.2) :
    cellAt (if cellAt sol p.1 p.2 == Cell.unknown then
        setCell sol p.1 p.2
          (if vLookup v p.1 p.2 then Cell.trap else Cell.gem)
      else sol) q.1 q.2 = cellAt sol q.1 q.2 := by
  split
  · exact cellAt_setCell_ne _ _ hne
  · rfl

theorem extract_fold_not_mem (v : Valuation) :
    ∀ (l : List (Nat × Nat)) (sol : Grid) (q : Nat × Nat), q ∉ l →
      cellAt (l.foldl (fun sol p =>
          if cellAt sol p.1 p.2 == Cell.unknown then
            setCell sol p.1 p.2
              (if vLookup v p.1 p.2 then Cell.trap else Cell.gem)
          else sol) sol) q.1 q.2 = cellAt sol q.1 q.2 := by
  intro l
  induction l with
  | nil => intro sol q _; rfl
  | cons p l ih =>
      intro sol q hq
      rw [List.foldl_cons,
        ih _ q (fun hh => hq (List.mem_cons_of_mem _ hh))]
      exact extract_step_ne v sol p q
        (ne_coords_of_ne fun hh => hq (by rw [hh]; exact List.mem_cons_self _ _))

theorem extract_fold_assigned_cell (v : Valuation) :
    ∀ (l : List (Nat × Nat)) (sol : Grid) (q : Nat × Nat),
      cellAt sol q.1 q.2 ≠ Cell.unknown →
      cellAt (l.foldl (fun sol p =>
          if cellAt sol p.1 p.2 == Cell.unknown then
            setCell sol p.1 p.2
              (if vLookup v p.1 p.2 then Cell.trap else Cell.gem)
          else sol) sol) q.1 q.2 = cellAt sol q.1 q.2 := by
  intro l
  induction l with
  | nil => intro sol q _; rfl
  | cons p l ih =>
      intro sol q hq
      rw [List.foldl_cons]
      by_cases hqp : q.1 = p.1 ∧ q.2 = p.2
      · have hguard : (cellAt sol p.1 p.2 == Cell.unknown) = false := by
          rw [beq_eq_false_iff_ne, ← hqp.1, ← hqp.2]
          exact hq
        rw [show (if cellAt sol p.1 p.2 == Cell.unknown then
            setCell sol p.1 p.2
              (if vLookup v p.1 p.2 then Cell.trap else Cell.gem)
          else sol) = sol from by rw [hguard]; rfl]
        exact ih sol q hq
      · have hne : q.1 ≠ p.1 ∨ q.2 ≠ p.2 := by tauto
        have hstep := extract_step_ne v sol p q hne
        rw [ih _ q (by rw [hstep]; exact hq), hstep]

theorem extract_fold_shape (g : Grid) (v : Valuation) (hsq : isSquare g = true) :
    ∀ (l : List (Nat × Nat)),
      (l.foldl (fun sol p =>
          if cellAt sol p.1 p.2 == Cell.unknown then
            setCell sol p.1 p.2
              (if vLookup v p.1 p.2 then Cell.trap else Cell.gem)
          else sol) g).length = g.length ∧
      isSquare (l.foldl (fun sol p =>
          if cellAt sol p.1 p.2 == Cell.unknown then
            setCell sol p.1 p.2
              (if vLookup v p.1 p.2 then Cell.trap else Cell.gem)
          else sol) g) = true := by
  intro l
  refine @foldl_preserve _ _
    (fun s => s.length = g.length ∧ isSquare s = true) _ ?_ l g ⟨rfl, hsq⟩
  intro s p hQ
  split
  · rw [length_setCell, isSquare_setCell]
    exact hQ
  · exact hQ

theorem extractSolution_length (g : Grid) (v : Valuation)
    (hsq : isSquare g = true) : (extractSolution g v).length = g.length :=
  (extract_fold_shape g v hsq (coordsOf g.length)).1

theorem extractSolution_preserve (g : Grid) (v : Valuation) (i j : Nat)
    (h : cellAt g i j ≠ Cell.unknown) :
    cellAt (extractSolution g v) i j = cellAt g i j :=
  extract_fold_assigned_cell v (coordsOf g.length) g (i, j) h

theorem extractSolution_assigned (g : Grid) (v : Valuation) (i j : Nat)
    (hsq : isSquare g = true) (hi : i < g.length) (hj : j < g.length)
    (h : cellAt g i j = Cell.unknown) :
    cellAt (extractSolution g v) i j =
      (if vLookup v i j then Cell.trap else Cell.gem) := by
  have hmem : (i, j) ∈ coordsOf g.length := mem_coordsOf.mpr ⟨hi, hj⟩
  rcases List.append_of_mem hmem with ⟨l1, l2, hsplit⟩
  have hnd := nodup_coordsOf g.length
  rw [hsplit] at hnd
  have hnd2 := List.nodup_append.mp hnd
  have hnotin1 : (i, j) ∉ l1 := fun hh =>
    hnd2.2.2 hh (List.mem_cons_self _ _)
  have hnotin2 : (i, j) ∉ l2 := (List.nodup_cons.mp hnd2.2.1).1
  unfold extractSolution
  rw [hsplit, List.foldl_append, List.foldl_cons]
  set sol1 := l1.foldl (fun sol p =>
      if cellAt sol p.1 p.2 == Cell.unknown then
        setCell sol p.1 p.2
          (if vLookup v p.1 p.2 then Cell.trap else Cell.gem)
      else sol) g with hsol1def
  have hcell1 : cellAt sol1 i j = Cell.unknown := by
    rw [hsol1def, extract_fold_not_mem v l1 g (i, j) hnotin1]
    exact h
  have hshape := extract_fold_shape g v hsq l1
  rw [← hsol1def] at hshape
  have hstep : (if cellAt sol1 i j == Cell.unknown then
      setCell sol1 i j (if vLookup v i j then Cell.trap else Cell.gem)
    else sol1) =
      setCell sol1 i j (if vLookup v i j then Cell.trap else Cell.gem) := by
    rw [show (cellAt sol1 i j == Cell.unknown) = true from beq_iff_eq.mpr hcell1]
    rfl
  rw [hstep]
  have hset : cellAt (setCell sol1 i j
      (if vLookup v i j then Cell.trap else Cell.gem)) i j =
      (if vLookup v i j then Cell.trap else Cell.gem) := by
    apply cellAt_setCell_self
    · rw [hshape.1]; exact hi
    · rw [isSquare_iff.mp hshape.2 i (by rw [hshape.1]; exact hi), hshape.1]
      exact hj
  rw [extract_fold_assigned_cell v l2 _ (i, j) (by
    rw [hset]
    split <;> exact fun hh => Cell.noConfusion hh)]
  exact hset

/-- The single counting pass of `solve_with_pysat` keeps
`filled = traps + goals` at every step. -/
theorem countStats_filled (g : Grid) :
    (countStats g).2.2 = (countStats g).1 + (countStats g).2.1 := by
  unfold countStats
  have h := @foldl_preserve _ _
    (fun acc : Nat × Nat × Nat => acc.2.2 = acc.1 + acc.2.1)
    (fun acc p =>
      match cellAt g p.1 p.2 with
      | Cell.trap => (acc.1 + 1, acc.2.1, acc.2.2 + 1)
      | Cell.gem => (acc.1, acc.2.1 + 1, acc.2.2 + 1)
      | _ => acc) ?_ (coordsOf g.length) (0, 0, 0) rfl
  · exact h
  · intro s p hQ
    cases hcell : cellAt g p.1 p.2 <;> simp only [hcell] <;> omega

/-! ### The clause set: canonical and duplicate-free -/

theorem insertClause_nodup {s : List (List Int)} {c : List Int}
    (h : s.Nodup) : (insertClause s c).Nodup := by
  unfold insertClause
  split
  · exact h
  · next hc =>
      rw [List.nodup_append]
      exact ⟨h, List.nodup_singleton c, fun a ha hmem => by
        rw [List.mem_singleton] at hmem
        exact hc (hmem ▸ ha)⟩

theorem insertClause_forall {s : List (List Int)} {c : List Int}
    {P : List Int → Prop} (hs : ∀ x ∈ s, P x) (hc : P c) :
    ∀ x ∈ insertClause s c, P x := by
  unfold insertClause
  split
  · exact hs
  · intro x hx
    rcases List.mem_append.mp hx with hx | hx
    · exact hs x hx
    · rw [List.mem_singleton] at hx
      exact hx ▸ hc

/-- Every clause set the generator can build — whatever clauses the
external cardinality encoder emits — is duplicate-free with every clause's
literals sorted. -/
theorem generate_cnf_clauses_canonical
    (am al : List Int → Nat → List (List Int)) (g : Grid) :
    (generate_cnf_clauses am al g).Nodup ∧
      ∀ cl ∈ generate_cnf_clauses am al g, List.Sorted (· ≤ ·) cl := by
  unfold generate_cnf_clauses
  have hgood : ∀ (s : List (List Int)) (c : List Int),
      (s.Nodup ∧ ∀ x ∈ s, List.Sorted (· ≤ ·) x) → List.Sorted (· ≤ ·) c →
      ((insertClause s c).Nodup ∧
        ∀ x ∈ insertClause s c, List.Sorted (· ≤ ·) x) :=
    fun s c hQ hc => ⟨insertClause_nodup hQ.1, insertClause_forall hQ.2 hc⟩
  have hsortedSort : ∀ cl : List Int,
      List.Sorted (· ≤ ·) (cl.insertionSort (· ≤ ·)) :=
    fun cl => List.sorted_insertionSort (· ≤ ·) cl
  have innerStep : ∀ (cs : List (List Int)) (s : List (List Int)),
      (s.Nodup ∧ ∀ x ∈ s, List.Sorted (· ≤ ·) x) →
      ((cs.foldl (fun t cl => insertClause t (cl.insertionSort (· ≤ ·))) s).Nodup ∧
        ∀ x ∈ cs.foldl (fun t cl => insertClause t (cl.insertionSort (· ≤ ·))) s,
          List.Sorted (· ≤ ·) x) := by
    intro cs s hQ
    refine @foldl_preserve _ _
      (fun s : List (List Int) => s.Nodup ∧ ∀ x ∈ s, List.Sorted (· ≤ ·) x) _ ?_ cs s hQ
    intro t cl hQ2
    exact hgood t _ hQ2 (hsortedSort cl)
  have pass1 : ((coordsOf g.length).foldl
      (fun s p =>
        match cellAt g p.1 p.2 with
        | Cell.trap => insertClause s [varId g.length p.1 p.2]
        | Cell.gem => insertClause s [-varId g.length p.1 p.2]
        | _ => s) []).Nodup ∧
      ∀ x ∈ (coordsOf g.length).foldl
        (fun s p =>
          match cellAt g p.1 p.2 with
          | Cell.trap => insertClause s [varId g.length p.1 p.2]
          | Cell.gem => insertClause s [-varId g.length p.1 p.2]
          | _ => s) [],
        List.Sorted (· ≤ ·) x := by
    refine @foldl_preserve _ _
      (fun s : List (List Int) => s.Nodup ∧ ∀ x ∈ s, List.Sorted (· ≤ ·) x) _ ?_
      (coordsOf g.length) [] ⟨List.nodup_nil, by intro x hx; cases hx⟩
    intro s p hQ
    cases hcell : cellAt g p.1 p.2 <;> simp only [hcell]
    · exact hQ
    · exact hgood s _ hQ (List.sorted_singleton _)
    · exact hgood s _ hQ (List.sorted_singleton _)
    · exact hQ
  refine @foldl_preserve _ _
    (fun s : List (List Int) => s.Nodup ∧ ∀ x ∈ s, List.Sorted (· ≤ ·) x) _ ?_
    (coordsOf g.length) _ pass1
  intro s p hQ
  cases hcell : cellAt g p.1 p.2 <;> simp only [hcell]
  · exact hQ
  · exact hQ
  · exact hQ
  · exact innerStep _ _ (innerStep _ _ hQ)

/-! ### Strategy-level characterizations -/

theorem defaultOracle_sound : oracleSound defaultOracle := by
  intro g v h
  exact List.find?_some h

theorem satisfiesCNF_clue_bound {g : Grid} {v : Valuation} {i j n : Nat}
    (hi : i < g.length) (hj : j < g.length) (hc : cellAt g i j = Cell.clue n)
    (hs : satisfiesCNF g v = true) :
    n ≤ (get_neighbors i j g.length).length := by
  unfold satisfiesCNF at hs
  have h := List.all_eq_true.mp hs (i, j) (mem_coordsOf.mpr ⟨hi, hj⟩)
  simp only [hc] at h
  rw [beq_iff_eq] at h
  rw [← h]
  exact List.countP_le_length _

theorem solve_with_brute_force_fst (g : Grid) :
    (solve_with_brute_force g).1 =
      (completions g (unknownsOf g)).find? is_valid_assignment := by
  have hg : ((allAssignments (unknownsOf g).length).findSome? fun asg =>
      let cand := placeAssignment g (unknownsOf g) asg
      if is_valid_assignment cand then some cand else none) =
      (completions g (unknownsOf g)).find? is_valid_assignment := by
    rw [← map_place_eq_completions]
    exact findSome?_guard (placeAssignment g (unknownsOf g))
      is_valid_assignment _
  unfold solve_with_brute_force
  dsimp only
  rw [hg]
  cases hfind : (completions g (unknownsOf g)).find? is_valid_assignment <;> rfl

theorem unknownsOf_unknown (g : Grid) :
    ∀ p ∈ unknownsOf g, cellAt g p.1 p.2 = Cell.unknown :=
  fun p hp => (mem_unknownsOf.mp hp).2.2

theorem solve_with_backtracking_fst (g : Grid) (h0 : 0 < g.length) :
    (solve_with_backtracking g).1 =
      (completions g (unknownsOf g)).find? is_valid_assignment := by
  have hbt := backtrackM_eq_find (unknownsOf g) g h0
    (unknownsOf_unknown g) (nodup_unknownsOf g)
  unfold solve_with_backtracking
  rw [hbt]
  cases hfind : (completions g (unknownsOf g)).find? is_valid_assignment with
  | none => rfl
  | some sol =>
      have hlen := length_of_mem_completions (List.mem_of_find?_eq_some hfind)
      cases sol with
      | nil =>
          exfalso
          rw [List.length_nil] at hlen
          omega
      | cons a t => rfl

/-- A call of `solve_with_backtracking` that returns a grid got it, truthy,
from the recursion. -/
theorem solve_with_backtracking_some {g sol : Grid}
    (h : (solve_with_backtracking g).1 = some sol) :
    (backtrackM (unknownsOf g) g).1 = some sol ∧ sol ≠ [] := by
  unfold solve_with_backtracking at h
  cases hcase : (backtrackM (unknownsOf g) g).1 with
  | none =>
      rw [hcase] at h
      cases h
  | some sol2 =>
      rw [hcase] at h
      cases sol2 with
      | nil => cases h
      | cons a t =>
          have : some (a :: t) = some sol := h
          rw [Option.some.injEq] at this
          exact ⟨by rw [this], by rw [← this]; exact fun hh => List.noConfusion hh⟩

/-- No grid that keeps an over-constrained clue cell can be valid: the
trap count among the clue's neighbors never exceeds the neighbor count. -/
theorem invalid_of_big_clue {h : Grid} {i j n : Nat}
    (hi : i < h.length) (hj : j < h.length) (hc : cellAt h i j = Cell.clue n)
    (hbig : (get_neighbors i j h.length).length < n) :
    is_valid_assignment h = false := by
  rw [← Bool.not_eq_true]
  intro hv
  have := is_valid_iff.mp hv i j n hi hj hc
  have hle := List.countP_le_length
    (fun q => cellAt h q.1 q.2 == Cell.trap) (l := get_neighbors i j h.length)
  omega

theorem mem_completions_frame {g sol : Grid} (hsq : isSquare g = true)
    (hmem : sol ∈ completions g (unknownsOf g)) :
    sol.length = g.length ∧
    ∀ i j, i < g.length → j < g.length →
      (cellAt g i j ≠ Cell.unknown → cellAt sol i j = cellAt g i j) ∧
      (cellAt g i j = Cell.unknown →
        cellAt sol i j = Cell.trap ∨ cellAt sol i j = Cell.gem) := by
  refine ⟨length_of_mem_completions hmem, ?_⟩
  intro i j hi hj
  constructor
  · exact fun hne => completions_preserve (unknownsOf_unknown g)
      (nodup_unknownsOf g) hmem i j hne
  · intro hunk
    exact completions_assigned hsq (unknownsOf_unknown g) (nodup_unknownsOf g)
      (fun p hp => ⟨(mem_unknownsOf.mp hp).1, (mem_unknownsOf.mp hp).2.1⟩)
      hmem (i, j) (mem_unknownsOf.mpr ⟨hi, hj, hunk⟩)

theorem extract_frame {g : Grid} (v : Valuation) (hsq : isSquare g = true) :
    (extractSolution g v).length = g.length ∧
    ∀ i j, i < g.length → j < g.length →
      (cellAt g i j ≠ Cell.unknown →
        cellAt (extractSolution g v) i j = cellAt g i j) ∧
      (cellAt g i j = Cell.unknown →
        cellAt (extractSolution g v) i j = Cell.trap ∨
          cellAt (extractSolution g v) i j = Cell.gem) := by
  refine ⟨extractSolution_length g v hsq, ?_⟩
  intro i j hi hj
  constructor
  · exact fun hne => extractSolution_preserve g v i j hne
  · intro hunk
    rw [extractSolution_assigned g v i j hsq hi hj hunk]
    split
    · exact Or.inl rfl
    · exact Or.inr rfl

theorem no_unknown_of_frame {g sol : Grid}
    (hframe : ∀ i j, i < g.length → j < g.length →
      (cellAt g i j ≠ Cell.unknown → cellAt sol i j = cellAt g i j) ∧
      (cellAt g i j = Cell.unknown →
        cellAt sol i j = Cell.trap ∨ cellAt sol i j = Cell.gem)) :
    ∀ i j, i < g.length → j < g.length → cellAt sol i j ≠ Cell.unknown := by
  intro i j hi hj
  by_cases hu : cellAt g i j = Cell.unknown
  · rcases (hframe i j hi hj).2 hu with h | h <;> rw [h] <;>
      exact fun hh => Cell.noConfusion hh
  · rw [(hframe i j hi hj).1 hu]
    exact hu

theorem solve_with_pysat_some_eq {oracle : Grid → Option Valuation}
    {am al : List Int → Nat → List (List Int)} {g : Grid} {v : Valuation}
    (hcase : oracle g = some v) :
    solve_with_pysat oracle am al g =
      (some (extractSolution g v),
        ⟨some (StatVal.num (generate_cnf_clauses am al g).length),
          some (StatVal.num (countStats (extractSolution g v)).2.1),
          some (StatVal.num (countStats (extractSolution g v)).1),
          some (StatVal.num (countStats (extractSolution g v)).2.2)⟩) := by
  unfold solve_with_pysat
  rw [hcase]

theorem solve_with_pysat_none_eq {oracle : Grid → Option Valuation}
    {am al : List Int → Nat → List (List Int)} {g : Grid}
    (hcase : oracle g = none) :
    solve_with_pysat oracle am al g =
      (none, ⟨some (StatVal.num (generate_cnf_clauses am al g).length),
        none, none, none⟩) := by
  unfold solve_with_pysat
  rw [hcase]

theorem solve_with_pysat_some_inv {oracle : Grid → Option Valuation}
    {am al : List Int → Nat → List (List Int)} {g sol : Grid}
    (h : (solve_with_pysat oracle am al g).1 = some sol) :
    ∃ v, oracle g = some v ∧ sol = extractSolution g v := by
  cases hcase : oracle g with
  | none =>
      rw [solve_with_pysat_none_eq hcase] at h
      cases h
  | some v =>
      rw [solve_with_pysat_some_eq hcase] at h
      rw [Option.some.injEq] at h
      exact ⟨v, rfl, h.symm⟩

theorem solve_with_brute_force_cases (g : Grid) :
    (∃ sol, solve_with_brute_force g = (some sol, searchStats sol)) ∨
      solve_with_brute_force g = (none, emptyStats) := by
  unfold solve_with_brute_force
  dsimp only
  split
  · next cand _ => exact Or.inl ⟨cand, rfl⟩
  · exact Or.inr rfl

theorem solve_with_backtracking_cases (g : Grid) :
    (∃ sol, solve_with_backtracking g = (some sol, searchStats sol)) ∨
      solve_with_backtracking g = (none, emptyStats) := by
  unfold solve_with_backtracking
  split
  · next sol _ =>
      split
      · exact Or.inr rfl
      · exact Or.inl ⟨sol, rfl⟩
  · exact Or.inr rfl

theorem solve_with_backtracking_some_find {g sol : Grid}
    (h : (solve_with_backtracking g).1 = some sol) :
    (completions g (unknownsOf g)).find? is_valid_assignment = some sol ∧
      0 < g.length := by
  obtain ⟨hbt, hnil⟩ := solve_with_backtracking_some h
  have hlen : sol.length = g.length :=
    ((backtrackM_props (unknownsOf g) g).1 sol hbt).1
  have h0 : 0 < g.length := by
    cases sol with
    | nil => exact absurd rfl hnil
    | cons a t => rw [← hlen]; exact Nat.succ_pos _
  refine ⟨?_, h0⟩
  rw [← backtrackM_eq_find (unknownsOf g) g h0 (unknownsOf_unknown g)
    (nodup_unknownsOf g)]
  exact hbt

/-! ### The claims -/

/-- C1: validity round-trip.  The brute-force and backtracking strategies
only ever return grids passing the full validity check.  The SAT strategy
does not: on the grid `[[1, 0], [_, _]]` every satisfying valuation of the
encoding sets the clue-`0` cell's own variable true (the encoding gives
numbered cells variables and counts them as potential traps), so the
solver succeeds, extraction turns both unknowns into gems, and the
returned grid fails `is_valid_assignment` — the clue `1` has no trap
neighbor. -/
theorem c1_validity_roundtrip :
    (∀ (g : Grid) (sol : Grid), (solve_with_brute_force g).1 = some sol →
      is_valid_assignment sol = true) ∧
    (∀ (g : Grid) (sol : Grid), (solve_with_backtracking g).1 = some sol →
      is_valid_assignment sol = true) ∧
    ((solve_with_pysat defaultOracle nullCard nullCard gBug).1 =
        some gBugResult ∧
      is_valid_assignment gBugResult = false) := by
  refine ⟨?_, ?_, by decide, by decide⟩
  · intro g sol h
    rw [solve_with_brute_force_fst] at h
    exact List.find?_some h
  · intro g sol h
    obtain ⟨hbt, _⟩ := solve_with_backtracking_some h
    exact ((backtrackM_props (unknownsOf g) g).1 sol hbt).2.2

theorem c1_witness :
    is_valid_assignment [[Cell.clue 1, Cell.trap], [Cell.gem, Cell.gem]]
      = true :=
  c1_validity_roundtrip.1 gScen
    [[Cell.clue 1, Cell.trap], [Cell.gem, Cell.gem]] (by decide)

/-- C3: the brute-force searcher returns the first candidate, in the order
of the Cartesian product `{T, G}^|U|` (leftmost unknown varying slowest,
`T` before `G`), that passes the full validity check; the product is a
duplicate-free enumeration of all `2^|U|` length-`|U|` assignments, and
the unknown list is strictly row-major ordered. -/
theorem c3_brute_force_enumeration (g : Grid) :
    (solve_with_brute_force g).1 =
      ((allAssignments (unknownsOf g).length).map
        (placeAssignment g (unknownsOf g))).find? is_valid_assignment ∧
    (allAssignments (unknownsOf g).length).length =
      2 ^ (unknownsOf g).length ∧
    (allAssignments (unknownsOf g).length).Nodup ∧
    (∀ a ∈ allAssignments (unknownsOf g).length,
      a.length = (unknownsOf g).length) ∧
    (unknownsOf g).Pairwise lexLt := by
  refine ⟨?_, length_allAssignments _, nodup_allAssignments _,
    fun a ha => length_of_mem_allAssignments ha, pairwise_lexLt_unknownsOf g⟩
  rw [solve_with_brute_force_fst, map_place_eq_completions]

theorem c3_witness :
    ([true, true, true] : List Bool).length = (unknownsOf gScen).length :=
  (c3_brute_force_enumeration gScen).2.2.2.1 [true, true, true] (by decide)

/-- C7: whatever clauses the two external cardinality passes produce, the
generated clause set is duplicate-free and every clause in it has its
literals sorted (unit clauses are singletons, cardinality clauses are
sorted before insertion, and insertion skips clauses already present). -/
theorem c7_clause_canonicalization :
    ∀ (am al : List Int → Nat → List (List Int)) (g : Grid),
      (generate_cnf_clauses am al g).Nodup ∧
      ∀ cl ∈ generate_cnf_clauses am al g, List.Sorted (· ≤ ·) cl :=
  generate_cnf_clauses_canonical

theorem c7_witness : List.Sorted (· ≤ ·) [(1 : Int)] :=
  (c7_clause_canonicalization nullCard nullCard [[Cell.trap]]).2 [1] (by decide)

/-- C8: determinism.  The canonicalized clause set is a function of the
grid alone: as a set it is invariant under the arbitrary iteration order a
Python `set` exposes when converted back to a list; and the two embedded
search strategies are pure functions of the grid, so two runs on the same
input return the same result. -/
theorem c8_two_run_determinism :
    ∀ (g : Grid) (am al : List Int → Nat → List (List Int))
      (ord1 ord2 : List (List Int) → List (List Int)),
      (∀ l, (ord1 l).Perm l) → (∀ l, (ord2 l).Perm l) →
      (ord1 (generate_cnf_clauses am al g)).toFinset =
        (ord2 (generate_cnf_clauses am al g)).toFinset ∧
      solve_with_brute_force g = solve_with_brute_force g ∧
      solve_with_backtracking g = solve_with_backtracking g := by
  intro g am al ord1 ord2 h1 h2
  refine ⟨?_, rfl, rfl⟩
  rw [List.toFinset_eq_of_perm _ _ (h1 _), List.toFinset_eq_of_perm _ _ (h2 _)]

theorem c8_witness :
    (generate_cnf_clauses nullCard nullCard gScen).toFinset =
      ((generate_cnf_clauses nullCard nullCard gScen).reverse).toFinset ∧
    solve_with_brute_force gScen = solve_with_brute_force gScen ∧
    solve_with_backtracking gScen = solve_with_backtracking gScen :=
  c8_two_run_determinism gScen nullCard nullCard id List.reverse
    (fun l => List.Perm.refl l) (fun l => List.reverse_perm l)

/-- C2: the backtracking searcher's structure.  (a) The local check
rejects exactly when some clue cell in the 3×3 box around the changed cell
has more traps than its number, or is fully assigned with the wrong
count; (b) the order (each unknown in list order, `Trap` tried before
`Gem`), the local-check gating and the revert-to-`Unknown` discipline make
the stateful recursion equal to the pure recursion `backtrackClaim`, and a
failed call hands the candidate back unchanged; (c) at the end of the
unknown list one full validity check decides acceptance. -/
theorem c2_backtracking_search_structure :
    (∀ (cand : Grid) (r c : Nat),
      is_partial_consistent cand r c = false ↔
        ∃ i j n, i ∈ boxList r cand.length ∧ j ∈ boxList c cand.length ∧
          cellAt cand i j = Cell.clue n ∧
          (n < ((get_neighbors i j cand.length).countP fun q =>
              cellAt cand q.1 q.2 == Cell.trap) ∨
            ((∀ q ∈ get_neighbors i j cand.length,
                cellAt cand q.1 q.2 ≠ Cell.unknown) ∧
              ((get_neighbors i j cand.length).countP fun q =>
                cellAt cand q.1 q.2 == Cell.trap) ≠ n))) ∧
    (∀ (us : List (Nat × Nat)) (c : Grid),
      (∀ p ∈ us, cellAt c p.1 p.2 = Cell.unknown) → us.Nodup →
      (backtrackM us c).1 = backtrackClaim us c ∧
      ((backtrackM us c).1 = none → (backtrackM us c).2 = c)) ∧
    (∀ c : Grid, backtrackM [] c =
      (if is_valid_assignment c then some c else none, c)) := by
  refine ⟨fun cand r c => is_partial_consistent_false_iff, ?_, fun c => rfl⟩
  intro us c hu hnd
  exact ⟨backtrackM_fst_eq_claim us c hu hnd,
    (backtrackM_props us c).2.2 hu hnd⟩

theorem c2_witness :
    (backtrackM (unknownsOf gScen) gScen).1 =
      backtrackClaim (unknownsOf gScen) gScen :=
  (c2_backtracking_search_structure.2.1 (unknownsOf gScen) gScen
    (by decide) (by decide)).1

/-- C4: a clue strictly larger than its neighbor count is not specially
detected; it just makes the instance unsatisfiable, and all three
strategies return the ordinary no-solution value (the embedding's total
functions return `none`; nothing is raised). -/
theorem c4_overconstrained_clue_no_solution :
    ∀ (g : Grid) (i j n : Nat) (oracle : Grid → Option Valuation)
      (am al : List Int → Nat → List (List Int)),
      oracleSound oracle → isSquare g = true →
      i < g.length → j < g.length → cellAt g i j = Cell.clue n →
      (get_neighbors i j g.length).length < n →
      (solve_with_pysat oracle am al g).1 = none ∧
      (solve_with_brute_force g).1 = none ∧
      (solve_with_backtracking g).1 = none := by
  intro g i j n oracle am al hsound hsq hi hj hc hbig
  have hfindnone :
      (completions g (unknownsOf g)).find? is_valid_assignment = none := by
    cases hfind : (completions g (unknownsOf g)).find? is_valid_assignment with
    | none => rfl
    | some sol =>
        exfalso
        have hmem := List.mem_of_find?_eq_some hfind
        have hvalid := List.find?_some hfind
        have hlen := length_of_mem_completions hmem
        have hpres := completions_preserve (unknownsOf_unknown g)
          (nodup_unknownsOf g) hmem i j
          (by rw [hc]; exact fun hh => Cell.noConfusion hh)
        have hinv : is_valid_assignment sol = false :=
          @invalid_of_big_clue sol i j n (by omega) (by omega)
            (by rw [hpres, hc]) (by rw [hlen]; exact hbig)
        rw [hinv] at hvalid
        cases hvalid
  have h0 : 0 < g.length := by omega
  refine ⟨?_, ?_, ?_⟩
  · cases hcase : oracle g with
    | some v =>
        exfalso
        have hs := hsound g v hcase
        have := satisfiesCNF_clue_bound hi hj hc hs
        omega
    | none => rw [solve_with_pysat_none_eq hcase]
  · rw [solve_with_brute_force_fst]
    exact hfindnone
  · rw [solve_with_backtracking_fst g h0]
    exact hfindnone

theorem c4_witness :
    (solve_with_pysat defaultOracle nullCard nullCard [[Cell.clue 1]]).1 =
        none ∧
      (solve_with_brute_force [[Cell.clue 1]]).1 = none ∧
      (solve_with_backtracking [[Cell.clue 1]]).1 = none :=
  c4_overconstrained_clue_no_solution [[Cell.clue 1]] 0 0 1 defaultOracle
    nullCard nullCard defaultOracle_sound (by decide) (by decide) (by decide)
    (by decide) (by decide)

/-- C5: every solve call returns a pair.  On success the grid is wrapped
in `some` and the stats are freshly computed from the returned grid; on
no-solution the grid component is the explicit `none` — not an exception —
and a stats dictionary is still returned (the clause count alone for the
SAT strategy, the empty dictionary for the two searchers). -/
theorem c5_pair_and_stats_shape :
    ∀ (g : Grid) (oracle : Grid → Option Valuation)
      (am al : List Int → Nat → List (List Int)),
      ((∃ v, oracle g = some v ∧
          solve_with_pysat oracle am al g =
            (some (extractSolution g v),
              ⟨some (StatVal.num (generate_cnf_clauses am al g).length),
                some (StatVal.num (countStats (extractSolution g v)).2.1),
                some (StatVal.num (countStats (extractSolution g v)).1),
                some (StatVal.num (countStats (extractSolution g v)).2.2)⟩)) ∨
        (oracle g = none ∧
          solve_with_pysat oracle am al g =
            (none,
              ⟨some (StatVal.num (generate_cnf_clauses am al g).length),
                none, none, none⟩))) ∧
      ((∃ sol, solve_with_brute_force g = (some sol, searchStats sol)) ∨
        solve_with_brute_force g = (none, emptyStats)) ∧
      ((∃ sol, solve_with_backtracking g = (some sol, searchStats sol)) ∨
        solve_with_backtracking g = (none, emptyStats)) := by
  intro g oracle am al
  refine ⟨?_, solve_with_brute_force_cases g, solve_with_backtracking_cases g⟩
  cases hcase : oracle g with
  | some v => exact Or.inl ⟨v, rfl, solve_with_pysat_some_eq hcase⟩
  | none => exact Or.inr ⟨rfl, solve_with_pysat_none_eq hcase⟩

/-- C6: frame conditions.  A solved grid from any strategy has the input's
dimensions, leaves every originally non-`Unknown` cell (fixed `Trap`/`Gem`
and every clue) exactly as it was, and assigns every originally `Unknown`
cell to `Trap` or `Gem`; the caller's grid value itself is untouched —
each strategy builds its result from a copy, which the pure embedding
renders as the solvers being functions from the input grid to a fresh
output grid. -/
theorem c6_frame_conditions :
    ∀ (g : Grid) (oracle : Grid → Option Valuation)
      (am al : List Int → Nat → List (List Int)) (sol : Grid),
      isSquare g = true →
      ((solve_with_pysat oracle am al g).1 = some sol ∨
        (solve_with_brute_force g).1 = some sol ∨
        (solve_with_backtracking g).1 = some sol) →
      sol.length = g.length ∧
      ∀ i j, i < g.length → j < g.length →
        (cellAt g i j ≠ Cell.unknown → cellAt sol i j = cellAt g i j) ∧
        (cellAt g i j = Cell.unknown →
          cellAt sol i j = Cell.trap ∨ cellAt sol i j = Cell.gem) := by
  intro g oracle am al sol hsq hcase
  rcases hcase with h | h | h
  · rcases solve_with_pysat_some_inv h with ⟨v, _, rfl⟩
    exact extract_frame v hsq
  · rw [solve_with_brute_force_fst] at h
    exact mem_completions_frame hsq (List.mem_of_find?_eq_some h)
  · exact mem_completions_frame hsq
      (List.mem_of_find?_eq_some (solve_with_backtracking_some_find h).1)

theorem c6_witness :
    ([[Cell.clue 1, Cell.trap], [Cell.gem, Cell.gem]] : Grid).length =
        gScen.length ∧
      ∀ i j, i < gScen.length → j < gScen.length →
        (cellAt gScen i j ≠ Cell.unknown →
          cellAt [[Cell.clue 1, Cell.trap], [Cell.gem, Cell.gem]] i j =
            cellAt gScen i j) ∧
        (cellAt gScen i j = Cell.unknown →
          cellAt [[Cell.clue 1, Cell.trap], [Cell.gem, Cell.gem]] i j =
              Cell.trap ∨
            cellAt [[Cell.clue 1, Cell.trap], [Cell.gem, Cell.gem]] i j =
              Cell.gem) :=
  c6_frame_conditions gScen defaultOracle nullCard nullCard
    [[Cell.clue 1, Cell.trap], [Cell.gem, Cell.gem]] (by decide)
    (Or.inr (Or.inl (by decide)))

/-- C9: after every successful solve the returned stats satisfy
`filled_count = trap_count + goal_count`, and the returned grid has no
`Unknown` cell left — every cell is exactly one of `Trap`, `Gem` or the
preserved clue. -/
theorem c9_success_stats_invariant :
    ∀ (g : Grid) (oracle : Grid → Option Valuation)
      (am al : List Int → Nat → List (List Int)) (sol : Grid),
      isSquare g = true →
      ((solve_with_pysat oracle am al g).1 = some sol →
        (∃ t gl,
          (solve_with_pysat oracle am al g).2.trap_count =
            some (StatVal.num t) ∧
          (solve_with_pysat oracle am al g).2.goal_count =
            some (StatVal.num gl) ∧
          (solve_with_pysat oracle am al g).2.filled_count =
            some (StatVal.num (t + gl))) ∧
        ∀ i j, i < g.length → j < g.length →
          cellAt sol i j ≠ Cell.unknown) ∧
      ((solve_with_brute_force g).1 = some sol →
        (∃ t gl,
          (solve_with_brute_force g).2.trap_count = some (StatVal.num t) ∧
          (solve_with_brute_force g).2.goal_count = some (StatVal.num gl) ∧
          (solve_with_brute_force g).2.filled_count =
            some (StatVal.num (t + gl))) ∧
        ∀ i j, i < g.length → j < g.length →
          cellAt sol i j ≠ Cell.unknown) ∧
      ((solve_with_backtracking g).1 = some sol →
        (∃ t gl,
          (solve_with_backtracking g).2.trap_count = some (StatVal.num t) ∧
          (solve_with_backtracking g).2.goal_count = some (StatVal.num gl) ∧
          (solve_with_backtracking g).2.filled_count =
            some (StatVal.num (t + gl))) ∧
        ∀ i j, i < g.length → j < g.length →
          cellAt sol i j ≠ Cell.unknown) := by
  intro g oracle am al sol hsq
  refine ⟨?_, ?_, ?_⟩
  · intro h
    obtain ⟨v, hcase, hext⟩ := solve_with_pysat_some_inv h
    constructor
    · refine ⟨(countStats (extractSolution g v)).1,
        (countStats (extractSolution g v)).2.1, ?_, ?_, ?_⟩
      · rw [solve_with_pysat_some_eq hcase]
      · rw [solve_with_pysat_some_eq hcase]
      · rw [solve_with_pysat_some_eq hcase]
        rw [← countStats_filled]
    · rw [hext]
      exact no_unknown_of_frame (extract_frame v hsq).2
  · intro h
    constructor
    · rcases solve_with_brute_force_cases g with ⟨sol2, heq⟩ | heq
      · refine ⟨countTraps sol2, countGems sol2, ?_, ?_, ?_⟩ <;> rw [heq] <;> rfl
      · rw [heq] at h
        cases h
    · rw [solve_with_brute_force_fst] at h
      exact no_unknown_of_frame
        (mem_completions_frame hsq (List.mem_of_find?_eq_some h)).2
  · intro h
    constructor
    · rcases solve_with_backtracking_cases g with ⟨sol2, heq⟩ | heq
      · refine ⟨countTraps sol2, countGems sol2, ?_, ?_, ?_⟩ <;> rw [heq] <;> rfl
      · rw [heq] at h
        cases h
    · exact no_unknown_of_frame
        (mem_completions_frame hsq (List.mem_of_find?_eq_some
          (solve_with_backtracking_some_find h).1)).2

theorem c9_witness :
    (∃ t gl,
      (solve_with_brute_force gScen).2.trap_count = some (StatVal.num t) ∧
      (solve_with_brute_force gScen).2.goal_count = some (StatVal.num gl) ∧
      (solve_with_brute_force gScen).2.filled_count =
        some (StatVal.num (t + gl))) ∧
    ∀ i j, i < gScen.length → j < gScen.length →
      cellAt [[Cell.clue 1, Cell.trap], [Cell.gem, Cell.gem]] i j ≠
        Cell.unknown :=
  (c9_success_stats_invariant gScen defaultOracle nullCard nullCard
    [[Cell.clue 1, Cell.trap], [Cell.gem, Cell.gem]] (by decide)).2.1
    (by decide)

/-- C10: on any grid where both searchers succeed they return the same
grid.  Both are the first valid completion of the unknown list in the
shared order (row-major unknowns, `Trap` before `Gem`): brute force by
direct enumeration, backtracking because its pruning never rejects a
prefix of a fully valid completion. -/
theorem c10_brute_backtracking_agree :
    ∀ g : Grid,
      (0 < g.length →
        (solve_with_brute_force g).1 =
          (completions g (unknownsOf g)).find? is_valid_assignment ∧
        (solve_with_backtracking g).1 =
          (completions g (unknownsOf g)).find? is_valid_assignment) ∧
      ∀ s1 s2, (solve_with_brute_force g).1 = some s1 →
        (solve_with_backtracking g).1 = some s2 → s1 = s2 := by
  intro g
  constructor
  · intro h0
    exact ⟨solve_with_brute_force_fst g, solve_with_backtracking_fst g h0⟩
  · intro s1 s2 h1 h2
    have hf2 := (solve_with_backtracking_some_find h2).1
    rw [solve_with_brute_force_fst, hf2] at h1
    exact ((Option.some.injEq _ _).mp h1).symm

theorem c10_witness :
    (solve_with_backtracking gScen).1 =
      (completions gScen (unknownsOf gScen)).find? is_valid_assignment :=
  ((c10_brute_backtracking_agree gScen).1 (by decide)).2

end GemHunt
